import Mathlib

/-!
Verification of the Anchor MCU protocol core (Annex-Engineering/anchor).

This file gives a shallow embedding, in Lean, of the runtime transport core
(`anchor/src/encoding.rs`, `anchor/src/transport.rs`, `anchor/src/fifo_buffer.rs`)
and of two build-time routines of `anchor_codegen/src/lib.rs`
(`assign_command_ids` and the generated `handle_identify`), together with
theorems about them.

Modelling conventions:
* Machine integers (`u8`, `u16`, `u32`) are `Nat` with explicit `% 2^w`
  truncation where the Rust code can overflow; `i32` values are `Int`.
* The Rust arithmetic shift `>> s` on `i32` is floor division by `2^s`,
  which for a positive divisor coincides with the Lean `Int` division `/`
  (Euclidean division).  `x & 0x7F` on a two-complement (signed) value is the
  non-negative residue `x % 128` (`Int.emod`).
* Byte slices are `List Nat`; a `&mut &[u8]` in-place advance is modelled by
  returning the final slice alongside the result.
* Fallible code returns `Option`; a Rust panic (slice bounds, integer
  overflow with overflow checks on) is modelled as `none`.
-/

namespace Anchor

/-! ## VLQ codec (`anchor/src/encoding.rs`) -/

/-- Model of `next_byte` (encoding.rs): pop one byte off the front of the slice,
returning the value (or `none` on empty input) and the advanced slice. -/
def next_byte : List Nat → Option Nat × List Nat
  | [] => (none, [])
  | b :: rest => (some b, rest)

/-- The `while c & 0x80 != 0` loop of `parse_vlq_int`: `c` is the byte read
last, `v` the accumulator (a `u32`).  Returns the value and the final slice. -/
def parse_vlq_cont : Nat → Nat → List Nat → Option Nat × List Nat
  | c, v, [] => if c &&& 0x80 ≠ 0 then (none, []) else (some v, [])
  | c, v, c' :: rest =>
    if c &&& 0x80 ≠ 0 then
      parse_vlq_cont c' (((v <<< 7) ||| (c' &&& 0x7F)) % 2 ^ 32) rest
    else (some v, c' :: rest)

/-- Model of `parse_vlq_int` (encoding.rs lines 28-40): read one byte `c`, start from
its low 7 bits, sign-extend (`v |= (-0x20i32) as u32`, i.e. or with
`0xFFFFFFE0`) when `c & 0x60 == 0x60`, then continue while the high bit of
the last byte is set. -/
def parse_vlq_int (data : List Nat) : Option Nat × List Nat :=
  match data with
  | [] => (none, [])
  | c :: rest =>
    let v := c &&& 0x7F
    let v := if c &&& 0x60 = 0x60 then v ||| 0xFFFFFFE0 else v
    parse_vlq_cont c v rest

/-- The `v as i32` reinterpretation of a `u32` bit pattern. -/
def toI32 (v : Nat) : Int :=
  if v % 2 ^ 32 < 2 ^ 31 then ((v % 2 ^ 32 : Nat) : Int)
  else ((v % 2 ^ 32 : Nat) : Int) - 2 ^ 32

/-- One conditionally-emitted high byte of the encoder:
`((sv >> s) & 0x7F) as u8 | 0x80`. -/
def vlqByte (sv : Int) (s : Nat) : Nat :=
  ((sv / 2 ^ s) % 128).toNat ||| 0x80

/-- Model of `encode_vlq_int` (encoding.rs lines 52-67): for each shift position
`s ∈ {28, 21, 14, 7}` emit `((sv >> s) & 0x7F) | 0x80` when `sv` lies outside
`[-(1 << (s-2)), 3 << (s-2))`, then emit `sv & 0x7F`. -/
def encode_vlq_int (v : Nat) : List Nat :=
  let sv := toI32 v
  (if ¬(-(2 ^ 26) ≤ sv ∧ sv < 3 * 2 ^ 26) then [vlqByte sv 28] else []) ++
  (if ¬(-(2 ^ 19) ≤ sv ∧ sv < 3 * 2 ^ 19) then [vlqByte sv 21] else []) ++
  (if ¬(-(2 ^ 12) ≤ sv ∧ sv < 3 * 2 ^ 12) then [vlqByte sv 14] else []) ++
  (if ¬(-(2 ^ 5) ≤ sv ∧ sv < 3 * 2 ^ 5) then [vlqByte sv 7] else []) ++
  [(sv % 128).toNat]

/-- Model of `impl Readable for &[u8]` (encoding.rs lines 103-114): read a VLQ length
prefix, fail if fewer bytes remain than announced, otherwise split them off.
The returned second component is the final state of the input slice. -/
def read_bytes (data : List Nat) : Option (List Nat) × List Nat :=
  match parse_vlq_int data with
  | (none, rest) => (none, rest)
  | (some len, rest) =>
    if rest.length < len then (none, rest)
    else (some (rest.take len), rest.drop len)

example : encode_vlq_int 0 = [0] := by decide
example : encode_vlq_int 63 = [0x3F] := by decide
example : encode_vlq_int 64 = [64] := by decide
example : parse_vlq_int (encode_vlq_int 64 ++ [7]) = (some 64, [7]) := by decide
example : parse_vlq_int (encode_vlq_int ((2 ^ 32 - 300) % 2 ^ 32)) =
    (some (2 ^ 32 - 300), []) := by decide
example : parse_vlq_int (encode_vlq_int 123456789) = (some 123456789, []) := by decide

/-! ### Round-trip proof for the VLQ codec -/

/-- The `u32` residue of `sv` arithmetically shifted right by `7 * m` bits. -/
def u32of (sv : Int) (m : Nat) : Nat := ((sv / 2 ^ (7 * m)) % 2 ^ 32).toNat

/-- The last `m + 1` bytes emitted by `encode_vlq_int`: continuation bytes for
shifts `7*m, …, 7`, then the final byte `sv & 0x7F`. -/
def encTail (sv : Int) : Nat → List Nat
  | 0 => [(sv % 128).toNat]
  | m + 1 => vlqByte sv (7 * (m + 1)) :: encTail sv m

theorem and_or128 : ∀ e < 128, (e ||| 128) &&& 127 = e ∧ (e ||| 128) &&& 128 ≠ 0 ∧
    (e ||| 128) &&& 96 = e &&& 96 := by decide

theorem and_small : ∀ e < 128, e &&& 127 = e ∧ e &&& 128 = 0 := by decide

theorem sign_bits_low : ∀ e < 96, ¬(e &&& 96 = 96) := by decide

theorem sign_bits_high : ∀ e < 128, 96 ≤ e →
    e &&& 96 = 96 ∧ (e ||| 4294967264) = 4294967168 + e := by decide

theorem emod128_lt (t : Int) : (t % 128).toNat < 128 := by omega

/-- Shifting the accumulator left 7 bits and or-ing in the next 7-bit group
recovers the `u32` residue one shift level down. -/
theorem combine7 (t : Int) :
    (2 ^ 7 * ((t / 2 ^ 7) % 2 ^ 32).toNat + (t % 128).toNat) % 2 ^ 32 =
      ((t % 2 ^ 32).toNat) := by omega

theorem parse_vlq_cont_stop (c v : Nat) (data : List Nat) (h : c &&& 0x80 = 0) :
    parse_vlq_cont c v data = (some v, data) := by
  cases data <;> simp [parse_vlq_cont, h]

/-- Composition of floor divisions by positive divisors. -/
theorem ediv_ediv (a : Int) {b c : Int} (hb : 0 < b) (hc : 0 < c) :
    a / b / c = a / (b * c) := by
  have hbc : 0 < b * c := mul_pos hb hc
  have h1 : a = a % (b * c) + a / (b * c) * c * b := by
    have := Int.emod_add_ediv a (b * c)
    linarith [this, mul_comm b c]
  have hr0 : 0 ≤ a % (b * c) := Int.emod_nonneg _ (ne_of_gt hbc)
  have hr1 : a % (b * c) < b * c := Int.emod_lt_of_pos _ hbc
  conv_lhs => rw [h1]
  rw [Int.add_mul_ediv_right _ _ (ne_of_gt hb),
    Int.add_mul_ediv_right _ _ (ne_of_gt hc),
    Int.ediv_eq_zero_of_lt (Int.ediv_nonneg hr0 hb.le)
      ((Int.ediv_lt_iff_lt_mul hb).mpr (by linarith [mul_comm b c]))]
  simp

theorem cont_spec (sv : Int) (sfx : List Nat) :
    ∀ m c, c &&& 0x80 ≠ 0 →
      parse_vlq_cont c (u32of sv (m + 1)) (encTail sv m ++ sfx) =
        (some (u32of sv 0), sfx) := by
  intro m
  induction m with
  | zero =>
    intro c hc
    have he : (sv % 128).toNat < 128 := emod128_lt sv
    simp only [encTail, List.cons_append, List.nil_append, parse_vlq_cont, if_pos hc]
    rw [(and_small _ he).1, parse_vlq_cont_stop _ _ _ (and_small _ he).2]
    have hor : u32of sv 1 <<< 7 ||| (sv % 128).toNat =
        2 ^ 7 * u32of sv 1 + (sv % 128).toNat := by
      rw [Nat.shiftLeft_eq, Nat.mul_comm, ← Nat.mul_add_lt_is_or he]
    rw [hor]
    have h0 : u32of sv 0 = (sv % 2 ^ 32).toNat := by
      simp [u32of]
    have h1 : u32of sv 1 = ((sv / 2 ^ 7) % 2 ^ 32).toNat := by
      norm_num [u32of]
    rw [h0, h1, combine7]
    simp
  | succ m ih =>
    intro c hc
    have he : ((sv / 2 ^ (7 * (m + 1))) % 128).toNat < 128 := emod128_lt _
    simp only [encTail, List.cons_append, parse_vlq_cont, if_pos hc, vlqByte]
    rw [(and_or128 _ he).1]
    have hstep : (u32of sv (m + 1 + 1) <<< 7 |||
        ((sv / 2 ^ (7 * (m + 1))) % 128).toNat) % 2 ^ 32 = u32of sv (m + 1) := by
      rw [Nat.shiftLeft_eq, Nat.mul_comm, ← Nat.mul_add_lt_is_or he]
      have hdiv : sv / 2 ^ (7 * (m + 1)) / 2 ^ 7 = sv / 2 ^ (7 * (m + 1 + 1)) := by
        rw [ediv_ediv _ (by positivity) (by positivity), ← pow_add]
        ring_nf
      have := combine7 (sv / 2 ^ (7 * (m + 1)))
      rw [hdiv] at this
      simpa [u32of] using this
    rw [hstep]
    exact ih _ (and_or128 _ he).2.1

/-- Reading a head byte whose 7-bit group is the residue of a value
`t ∈ [-32, 96)` reconstructs the `u32` residue of `t`, via the
`(c & 0x60) == 0x60` sign extension. -/
theorem head_val (t : Int) (h1 : -32 ≤ t) (h2 : t < 96) :
    (if (t % 128).toNat &&& 96 = 96 then ((t % 128).toNat &&& 127) ||| 0xFFFFFFE0
     else (t % 128).toNat &&& 127) = ((t % 2 ^ 32).toNat) := by
  have he : (t % 128).toNat < 128 := emod128_lt t
  rw [(and_small _ he).1]
  by_cases ht : 0 ≤ t
  · have hlt : (t % 128).toNat < 96 := by omega
    rw [if_neg (sign_bits_low _ hlt)]
    omega
  · have hge : 96 ≤ (t % 128).toNat := by omega
    rw [if_pos (sign_bits_high _ he hge).1, (sign_bits_high _ he hge).2]
    omega

/-- Parsing a single-byte encoding (band 0, `sv ∈ [-32, 96)`). -/
theorem parse_enc_low (sv : Int) (sfx : List Nat) (h1 : -32 ≤ sv) (h2 : sv < 96) :
    parse_vlq_int (((sv % 128).toNat :: []) ++ sfx) = (some (u32of sv 0), sfx) := by
  have he : (sv % 128).toNat < 128 := emod128_lt sv
  simp only [List.cons_append, List.nil_append, parse_vlq_int]
  rw [parse_vlq_cont_stop _ _ _ (and_small _ he).2]
  have := head_val sv h1 h2
  rw [(and_small _ he).1] at this ⊢
  have h0 : u32of sv 0 = (sv % 2 ^ 32).toNat := by simp [u32of]
  split at this <;> split <;> simp_all [h0]

/-- Parsing a multi-byte encoding whose head byte sits at shift `7 * (m+1)`. -/
theorem parse_enc_high (sv : Int) (m : Nat) (sfx : List Nat)
    (ht1 : -32 ≤ sv / 2 ^ (7 * (m + 1))) (ht2 : sv / 2 ^ (7 * (m + 1)) < 96) :
    parse_vlq_int ((vlqByte sv (7 * (m + 1)) :: encTail sv m) ++ sfx) =
      (some (u32of sv 0), sfx) := by
  set t := sv / 2 ^ (7 * (m + 1)) with htdef
  have he : (t % 128).toNat < 128 := emod128_lt t
  have hu : (t % 2 ^ 32).toNat = u32of sv (m + 1) := by
    simp [u32of, ← htdef]
  have hv := head_val t ht1 ht2
  rw [(and_small _ he).1, hu] at hv
  simp only [List.cons_append, parse_vlq_int, vlqByte, ← htdef]
  rw [(and_or128 _ he).2.2, (and_or128 _ he).1, hv]
  exact cont_spec sv sfx m _ (and_or128 _ he).2.1

theorem toI32_spec (v : Nat) (hv : v < 2 ^ 32) :
    -(2 ^ 31) ≤ toI32 v ∧ toI32 v < 2 ^ 31 ∧ toI32 v % 2 ^ 32 = (v : Int) := by
  unfold toI32
  split <;> omega

/-- C1 (VLQ round-trip): decoding the encoder output yields the original
32-bit value and consumes exactly the encoded bytes, leaving any appended
suffix untouched. -/
theorem vlq_roundtrip (v : Nat) (hv : v < 2 ^ 32) (sfx : List Nat) :
    parse_vlq_int (encode_vlq_int v ++ sfx) = (some v, sfx) := by
  obtain ⟨hlo, hhi, hmod⟩ := toI32_spec v hv
  set sv := toI32 v with hsv
  have hu0 : u32of sv 0 = v := by
    simp only [u32of, pow_zero, Nat.mul_zero]
    omega
  simp only [encode_vlq_int, ← hsv]
  by_cases hb1 : -(2 ^ 5 : Int) ≤ sv ∧ sv < 3 * 2 ^ 5
  · rw [if_neg (by omega), if_neg (by omega),
      if_neg (by omega), if_neg (by omega)]
    simpa [hu0] using parse_enc_low sv sfx (by omega) (by omega)
  · by_cases hb2 : -(2 ^ 12 : Int) ≤ sv ∧ sv < 3 * 2 ^ 12
    · rw [if_neg (by omega), if_neg (by omega),
        if_neg (by omega), if_pos (by omega)]
      have := parse_enc_high sv 0 sfx (by omega) (by omega)
      simpa [encTail, hu0] using this
    · by_cases hb3 : -(2 ^ 19 : Int) ≤ sv ∧ sv < 3 * 2 ^ 19
      · rw [if_neg (by omega), if_neg (by omega),
          if_pos (by omega), if_pos (by omega)]
        have := parse_enc_high sv 1 sfx (by omega) (by omega)
        simpa [encTail, hu0] using this
      · by_cases hb4 : -(2 ^ 26 : Int) ≤ sv ∧ sv < 3 * 2 ^ 26
        · rw [if_neg (by omega), if_pos (by omega),
            if_pos (by omega), if_pos (by omega)]
          have := parse_enc_high sv 2 sfx (by omega) (by omega)
          simpa [encTail, hu0] using this
        · rw [if_pos (by omega), if_pos (by omega), if_pos (by omega),
            if_pos (by omega)]
          have := parse_enc_high sv 3 sfx (by omega) (by omega)
          simpa [encTail, hu0] using this

/-- C1 witness: the round-trip at `v = 150`, suffix `[9, 9]`. -/
theorem vlq_roundtrip_witness :
    150 < 2 ^ 32 ∧
      parse_vlq_int (encode_vlq_int 150 ++ [9, 9]) = (some 150, [9, 9]) :=
  ⟨by decide, vlq_roundtrip 150 (by decide) [9, 9]⟩

/-! ## Frame state machine (`anchor/src/transport.rs`) -/

/-- One step of the `crc16` loop (transport.rs lines 19-28), on `u16`/`u8`
values.  The `b << 4` is truncated to `u8`; the `u16` expression needs no
truncation since each operand is already below `2 ^ 16`. -/
def crc16_step (crc b : Nat) : Nat :=
  let b1 := b ^^^ (crc &&& 0xFF)
  let b2 := (b1 ^^^ (b1 <<< 4)) &&& 0xFF
  ((b2 <<< 8) ||| (crc >>> 8)) ^^^ (b2 >>> 4) ^^^ (b2 <<< 3)

/-- Model of `crc16` (transport.rs): fold over the buffer starting from `0xFFFF`. -/
def crc16 (buf : List Nat) : Nat := buf.foldl crc16_step 0xFFFF

/-- Observable effects of `receive`: bytes written to the transport output by
`encode_acknak`, and a frame body handed to `parse_frame` (the dispatcher). -/
inductive TOut where
  | ack : List Nat → TOut
  | disp : List Nat → TOut
deriving DecidableEq

/-- The 5 bytes written by `encode_acknak` (transport.rs lines 141-153). -/
def acknakBytes (ns : Nat) : List Nat :=
  let crc := crc16 [5, ns]
  [5, ns, (crc &&& 0xFF00) >>> 8, crc &&& 0xFF, 0x7E]

/-- Result of one iteration of the `while` loop in `receive`:
`stop` is the `break` (insufficient data) exit, `cont s ns data outs`
continues with new synchronization flag, `next_sequence`, remaining input,
and emitted effects. -/
inductive StepRes where
  | stop : StepRes
  | cont : Bool → Nat → List Nat → List TOut → StepRes
deriving DecidableEq

/-- One iteration of the `while !data.is_empty()` loop of
`Transport::receive` (transport.rs lines 62-119). -/
def receiveStep (sync : Bool) (ns : Nat) (data : List Nat) : StepRes :=
  match data with
  | [] => .stop
  | b :: rest =>
    if sync = false then
      match data.findIdx? (· = 0x7E) with
      | some n => .cont true ns (data.drop (n + 1)) [.ack (acknakBytes ns)]
      | none => .cont false ns [] []
    else
      if b = 0x7E then .cont sync ns rest []
      else if data.length < 5 then .stop
      else
        let len := data.getD 0 0
        if ¬(5 ≤ len ∧ len ≤ 64) then .cont false ns data []
        else
          let seq := data.getD 1 0
          if seq &&& 0xF0 ≠ 0x10 then .cont false ns data []
          else if data.length < len then .stop
          else if data.getD (len - 1) 0 ≠ 0x7E then .cont false ns data []
          else
            let frame_crc := (data.getD (len - 3) 0) <<< 8 ||| data.getD (len - 2) 0
            if frame_crc ≠ crc16 (data.take (len - 3)) then .cont false ns data []
            else
              let frame := (data.take (len - 3)).drop 2
              let data' := data.drop len
              if seq = ns then
                let ns' := ((seq + 1) &&& 0x0F) ||| 0x10
                .cont sync ns' data' [.disp frame, .ack (acknakBytes ns')]
              else .cont sync ns data' [.ack (acknakBytes ns)]

/-- Each continuing step either consumes input, or only drops
synchronization without consuming. -/
theorem receiveStep_progress {sync : Bool} {ns : Nat} {data : List Nat}
    {s' : Bool} {ns' : Nat} {d' : List Nat} {outs : List TOut}
    (h : receiveStep sync ns data = .cont s' ns' d' outs) :
    d'.length < data.length ∨ (d' = data ∧ s' = false ∧ sync = true) := by
  match data with
  | [] => simp [receiveStep] at h
  | b :: rest =>
    simp only [receiveStep] at h
    by_cases hs : sync = false
    · rw [if_pos hs] at h
      rcases hf : (b :: rest).findIdx? (· = 0x7E) with _ | n <;> rw [hf] at h <;>
        cases h <;> simp [Nat.sub_lt_succ]
    · rw [if_neg hs] at h
      have hs' : sync = true := by simpa using hs
      split at h
      · cases h; simp
      · split at h
        · cases h
        · split at h
          · cases h; exact Or.inr ⟨rfl, rfl, hs'⟩
          · split at h
            · cases h; exact Or.inr ⟨rfl, rfl, hs'⟩
            · split at h
              · cases h
              · split at h
                · cases h; exact Or.inr ⟨rfl, rfl, hs'⟩
                · split at h
                  · cases h; exact Or.inr ⟨rfl, rfl, hs'⟩
                  · have hlen : 5 ≤ (b :: rest).getD 0 0 := by
                      split at h
                      all_goals rename_i hc _; omega
                    split at h <;> cases h <;>
                      · left
                        have : (b :: rest).length - (b :: rest).getD 0 0 <
                            (b :: rest).length := by
                          simp only [List.length_cons]
                          omega
                        simpa using this

/-- The full `while` loop of `Transport::receive`, returning the final
synchronization flag, `next_sequence`, unconsumed input, and the effects
in emission order. -/
def receiveLoop (sync : Bool) (ns : Nat) (data : List Nat) :
    Bool × Nat × List Nat × List TOut :=
  match h : receiveStep sync ns data with
  | .stop => (sync, ns, data, [])
  | .cont s' ns' d' outs =>
    let r := receiveLoop s' ns' d'
    (r.1, r.2.1, r.2.2.1, outs ++ r.2.2.2)
termination_by 2 * data.length + (if sync then 1 else 0)
decreasing_by
  rcases receiveStep_progress h with h' | ⟨hd, hs', hsync⟩
  · rcases s' <;> rcases sync <;> simp <;> omega
  · subst hd hs' hsync; simp

/-! ### Arithmetic bridges for byte and CRC manipulations -/

theorem and255_eq_mod (x : Nat) : x &&& 0xFF = x % 256 := by
  have := Nat.and_pow_two_sub_one_eq_mod x 8
  norm_num at this
  exact this

theorem crc16_step_lt (crc b : Nat) (h : crc < 2 ^ 16) : crc16_step crc b < 2 ^ 16 := by
  simp only [crc16_step, Nat.shiftLeft_eq, Nat.shiftRight_eq_div_pow, and255_eq_mod]
  apply Nat.xor_lt_two_pow (n := 16)
    (Nat.xor_lt_two_pow (Nat.or_lt_two_pow ?_ ?_) ?_) ?_ <;> omega

theorem crc16_lt (buf : List Nat) : crc16 buf < 2 ^ 16 := by
  suffices h : ∀ l crc, crc < 2 ^ 16 → List.foldl crc16_step crc l < 2 ^ 16 from
    h buf 0xFFFF (by norm_num)
  intro l
  induction l with
  | nil => intro crc h; simpa using h
  | cons b tl ih => intro crc h; exact ih _ (crc16_step_lt _ _ h)

theorem shift_reconstruct (x : Nat) (h : x < 2 ^ 16) :
    (x / 256) <<< 8 ||| x % 256 = x := by
  rw [Nat.shiftLeft_eq, Nat.mul_comm, ← Nat.mul_add_lt_is_or (by omega)]
  omega

theorem and_ff00 (x : Nat) : x &&& 0xFF00 = ((x >>> 8) &&& 0xFF) <<< 8 := by
  have h0 : (0xFF00 : Nat) = 0xFF <<< 8 := by decide
  rw [h0]
  apply Nat.eq_of_testBit_eq
  intro i
  by_cases hi : 8 ≤ i
  · simp only [Nat.testBit_and, Nat.testBit_shiftLeft, Nat.testBit_shiftRight,
      decide_eq_true hi, Bool.true_and, Nat.add_sub_cancel' hi]
  · have hL : Nat.testBit (255 <<< 8) i = false := by
      rw [Nat.testBit_shiftLeft]
      simp [show ¬i ≥ 8 from hi]
    have hR : Nat.testBit (((x >>> 8) &&& 255) <<< 8) i = false := by
      rw [Nat.testBit_shiftLeft]
      simp [show ¬i ≥ 8 from hi]
    rw [Nat.testBit_and, hL, hR, Bool.and_false]

theorem hi_byte (x : Nat) (h : x < 2 ^ 16) : (x &&& 0xFF00) >>> 8 = x / 256 := by
  rw [and_ff00, Nat.shiftLeft_eq, Nat.shiftRight_eq_div_pow,
    Nat.mul_div_cancel _ (by norm_num), and255_eq_mod, Nat.shiftRight_eq_div_pow]
  omega

/-- The ACK bytes as the spec writes them: length 5, the current
`next_sequence`, the CRC16 over `[5, next_sequence]` big-endian, sync. -/
theorem acknakBytes_eq (ns : Nat) :
    acknakBytes ns = [5, ns, crc16 [5, ns] / 256, crc16 [5, ns] % 256, 0x7E] := by
  simp only [acknakBytes, hi_byte _ (crc16_lt _), and255_eq_mod]

theorem getD_append_left {l₁ l₂ : List Nat} {n : Nat} (d : Nat) (h : n < l₁.length) :
    (l₁ ++ l₂).getD n d = l₁.getD n d := by
  simp [List.getD_eq_getElem?_getD, List.getElem?_append_left h]

theorem getD_append_right {l₁ l₂ : List Nat} {n : Nat} (d : Nat) (h : l₁.length ≤ n) :
    (l₁ ++ l₂).getD n d = l₂.getD (n - l₁.length) d := by
  simp [List.getD_eq_getElem?_getD, List.getElem?_append_right h]

/-! ### Acceptance of a well-formed frame -/

theorem frame_step (B : List Nat) (S ns : Nat) (hlen : B.length ≤ 59)
    (hS : S &&& 0xF0 = 0x10) :
    receiveStep true ns ((B.length + 5) :: S :: B ++
        [crc16 ((B.length + 5) :: S :: B) / 256,
         crc16 ((B.length + 5) :: S :: B) % 256, 0x7E]) =
      (if S = ns then
        .cont true (((S + 1) &&& 0x0F) ||| 0x10)
          [] [.disp B, .ack (acknakBytes (((S + 1) &&& 0x0F) ||| 0x10))]
       else .cont true ns [] [.ack (acknakBytes ns)]) := by
  set L := B.length + 5 with hL
  set crc := crc16 (L :: S :: B) with hcrc
  set tail := [crc / 256, crc % 256, 0x7E] with htail
  have hlt : crc < 2 ^ 16 := crc16_lt _
  have hcons : L :: S :: B ++ tail = L :: (S :: (B ++ tail)) := by simp
  have hlen5 : (S :: (B ++ tail)).length = L - 1 := by
    simp [htail, hL]
  have gsync : (S :: (B ++ tail)).getD (L - 1 - 1) 0 = 0x7E := by
    have e : L - 1 - 1 = (B.length + 2) + 1 := by omega
    rw [e, List.getD_cons_succ, getD_append_right _ (by omega)]
    have e2 : B.length + 2 - B.length = 2 := by omega
    rw [e2]
    simp [htail]
  have ghi : (S :: (B ++ tail)).getD (L - 3 - 1) 0 = crc / 256 := by
    have e : L - 3 - 1 = B.length + 1 := by omega
    rw [e, List.getD_cons_succ, getD_append_right _ (by omega)]
    simp [htail]
  have glo : (S :: (B ++ tail)).getD (L - 2 - 1) 0 = crc % 256 := by
    have e : L - 2 - 1 = (B.length + 1) + 1 := by omega
    rw [e, List.getD_cons_succ, getD_append_right _ (by omega)]
    have e2 : B.length + 1 - B.length = 1 := by omega
    rw [e2]
    simp [htail]
  have gtake : (L :: (S :: (B ++ tail))).take (L - 3) = L :: S :: B := by
    have e : L - 3 = B.length + 2 := by omega
    rw [e]
    have : (L :: S :: B).length = B.length + 2 := by simp
    calc (L :: (S :: (B ++ tail))).take (B.length + 2)
        = ((L :: S :: B) ++ tail).take (B.length + 2) := by simp
      _ = L :: S :: B := List.take_left' this
  have gdrop : (L :: (S :: (B ++ tail))).drop L = [] := by
    apply List.drop_eq_nil_of_le
    simp [htail, hL]
  have Glen : (L :: (S :: (B ++ tail))).length = L := by
    simp [htail, hL]
  have G1 : (L :: (S :: (B ++ tail))).getD (L - 1) 0 = 126 := by
    rw [show L - 1 = (L - 1 - 1) + 1 by omega, List.getD_cons_succ, gsync]
  have G3 : (L :: (S :: (B ++ tail))).getD (L - 3) 0 = crc / 256 := by
    rw [show L - 3 = (L - 3 - 1) + 1 by omega, List.getD_cons_succ, ghi]
  have G2 : (L :: (S :: (B ++ tail))).getD (L - 2) 0 = crc % 256 := by
    rw [show L - 2 = (L - 2 - 1) + 1 by omega, List.getD_cons_succ, glo]
  have Gcrc : (crc / 256) <<< 8 ||| crc % 256 = crc := shift_reconstruct _ hlt
  have gbody : (L :: S :: B).drop 2 = B := rfl
  rw [hcons]
  simp only [receiveStep]
  rw [if_neg (show ¬(true = false) by simp)]
  rw [if_neg (show ¬(L = 126) by omega)]
  simp only [List.getD_cons_zero, List.getD_cons_succ, Glen, G1, G3, G2, gtake,
    gdrop, Gcrc, gbody]
  rw [if_neg (show ¬(L < 5) by omega)]
  rw [if_neg (show ¬¬(5 ≤ L ∧ L ≤ 64) by omega)]
  rw [if_neg (show ¬(S &&& 240 ≠ 16) by simp [hS])]
  rw [if_neg (show ¬(L < L) by omega)]
  rw [if_neg (show ¬((126 : Nat) ≠ 126) by simp)]
  rw [if_neg (show ¬(crc ≠ crc16 (L :: S :: B)) by simp [hcrc])]

theorem receiveLoop_stop {sync : Bool} {ns : Nat} {data : List Nat}
    (h : receiveStep sync ns data = .stop) :
    receiveLoop sync ns data = (sync, ns, data, []) := by
  rw [receiveLoop, h]

theorem receiveLoop_cont {sync : Bool} {ns : Nat} {data : List Nat} {s' : Bool}
    {ns' : Nat} {d' : List Nat} {outs : List TOut}
    (h : receiveStep sync ns data = .cont s' ns' d' outs) :
    receiveLoop sync ns data =
      ((receiveLoop s' ns' d').1, (receiveLoop s' ns' d').2.1,
       (receiveLoop s' ns' d').2.2.1, outs ++ (receiveLoop s' ns' d').2.2.2) := by
  rw [receiveLoop, h]

theorem receiveLoop_nil (sync : Bool) (ns : Nat) :
    receiveLoop sync ns [] = (sync, ns, [], []) :=
  receiveLoop_stop (by cases sync <;> rfl)

theorem receive_single_frame (B : List Nat) (S ns : Nat) (hlen : B.length ≤ 59)
    (hS : S &&& 0xF0 = 0x10) :
    receiveLoop true ns ((B.length + 5) :: S :: B ++
        [crc16 ((B.length + 5) :: S :: B) / 256,
         crc16 ((B.length + 5) :: S :: B) % 256, 0x7E]) =
      (if S = ns then
        (true, ((S + 1) &&& 0x0F) ||| 0x10, ([] : List Nat),
         [.disp B, .ack (acknakBytes (((S + 1) &&& 0x0F) ||| 0x10))])
       else (true, ns, [], [.ack (acknakBytes ns)])) := by
  have hstep := frame_step B S ns hlen hS
  by_cases h : S = ns
  · rw [if_pos h] at hstep
    rw [receiveLoop_cont hstep, receiveLoop_nil, if_pos h]
    simp
  · rw [if_neg h] at hstep
    rw [receiveLoop_cont hstep, receiveLoop_nil, if_neg h]
    simp

/-- C2 (frame acceptance): a well-formed frame `[L, S, B…, crc_hi, crc_lo, 0x7E]`
with `L = |B| + 5 ≤ MAX_LEN`, destination nibble correct and CRC correct, fed
while synchronized, is consumed entirely; when `S` equals `next_sequence` the
body is handed to the dispatcher and `next_sequence` becomes
`((S + 1) & SEQ_MASK) | DEST`, otherwise state and sequence are unchanged. -/
theorem frame_acceptance (B : List Nat) (S ns : Nat)
    (hB : ∀ b ∈ B, b < 256) (hlen : B.length ≤ 64 - 5) (hS256 : S < 256)
    (hS : S &&& 0xF0 = 0x10) :
    receiveLoop true ns ((B.length + 5) :: S :: B ++
        [crc16 ((B.length + 5) :: S :: B) / 256,
         crc16 ((B.length + 5) :: S :: B) % 256, 0x7E]) =
      (if S = ns then
        (true, ((S + 1) &&& 0x0F) ||| 0x10, ([] : List Nat),
         [.disp B, .ack (acknakBytes (((S + 1) &&& 0x0F) ||| 0x10))])
       else (true, ns, [], [.ack (acknakBytes ns)])) :=
  receive_single_frame B S ns (by omega) hS

/-- C2 witness: the empty body at sequence `0x10` with matching
`next_sequence`. -/
theorem frame_acceptance_witness :
    receiveLoop true 0x10 [5, 0x10, crc16 [5, 0x10] / 256,
        crc16 [5, 0x10] % 256, 0x7E] =
      (true, 0x11, [], [.disp [], .ack (acknakBytes 0x11)]) := by
  have h := frame_acceptance [] 0x10 0x10 (by decide) (by decide) (by decide)
    (by decide)
  simpa using h

/-- Discriminates the ACK writes among the observable effects. -/
def isAck : TOut → Bool
  | .ack _ => true
  | .disp _ => false

/-- C3 (ACK invariant): accepting the frame of C2 — whether or not its
sequence matched — emits exactly one ACK before `receive` returns, and that
ACK is the 5 bytes `[5, next_sequence, crc_hi, crc_lo, 0x7E]` with the CRC16
computed over `[5, next_sequence]`, big-endian. -/
theorem ack_exactly_once (B : List Nat) (S ns : Nat)
    (hB : ∀ b ∈ B, b < 256) (hlen : B.length ≤ 64 - 5) (hS256 : S < 256)
    (hS : S &&& 0xF0 = 0x10) :
    ((receiveLoop true ns ((B.length + 5) :: S :: B ++
        [crc16 ((B.length + 5) :: S :: B) / 256,
         crc16 ((B.length + 5) :: S :: B) % 256, 0x7E])).2.2.2).filter isAck =
      [.ack [5, if S = ns then ((S + 1) &&& 0x0F) ||| 0x10 else ns,
        crc16 [5, if S = ns then ((S + 1) &&& 0x0F) ||| 0x10 else ns] / 256,
        crc16 [5, if S = ns then ((S + 1) &&& 0x0F) ||| 0x10 else ns] % 256,
        0x7E]] := by
  have h := receive_single_frame B S ns (by omega) hS
  by_cases hc : S = ns
  · subst hc
    simp only [if_pos rfl] at h ⊢
    rw [h]
    simp [isAck, acknakBytes_eq]
  · simp only [if_neg hc] at h ⊢
    rw [h]
    simp [isAck, acknakBytes_eq]

/-- C3 witness: the C2 witness frame yields exactly one ACK, for the advanced
sequence `0x11`. -/
theorem ack_exactly_once_witness :
    ((receiveLoop true 0x10 [5, 0x10, crc16 [5, 0x10] / 256,
        crc16 [5, 0x10] % 256, 0x7E]).2.2.2).filter isAck =
      [.ack [5, 0x11, crc16 [5, 0x11] / 256, crc16 [5, 0x11] % 256, 0x7E]] := by
  have h := ack_exactly_once [] 0x10 0x10 (by decide) (by decide) (by decide)
    (by decide)
  simpa using h

theorem and15_lt (x : Nat) : x &&& 15 < 16 := by
  have := Nat.and_pow_two_sub_one_eq_mod x 4
  norm_num at this
  omega

theorem nibble_or : ∀ y < 16, (y ||| 16) &&& 240 = 16 := by decide

/-- A continuing step maps a `next_sequence` with DEST high nibble to another
one: the only update stamps `| DEST` back on. -/
theorem receiveStep_ns {sync : Bool} {ns : Nat} {data : List Nat} {s' : Bool}
    {ns' : Nat} {d' : List Nat} {outs : List TOut}
    (h : receiveStep sync ns data = .cont s' ns' d' outs)
    (hns : ns &&& 0xF0 = 0x10) : ns' &&& 0xF0 = 0x10 := by
  match data with
  | [] => simp [receiveStep] at h
  | b :: rest =>
    simp only [receiveStep] at h
    by_cases hs : sync = false
    · rw [if_pos hs] at h
      rcases hf : (b :: rest).findIdx? (· = 0x7E) with _ | n <;> rw [hf] at h <;>
        cases h <;> exact hns
    · rw [if_neg hs] at h
      split at h
      · cases h; exact hns
      · split at h
        · cases h
        · split at h
          · cases h; exact hns
          · split at h
            · cases h; exact hns
            · split at h
              · cases h
              · split at h
                · cases h; exact hns
                · split at h
                  · cases h; exact hns
                  · split at h <;> cases h
                    · exact nibble_or _ (and15_lt _)
                    · exact hns

/-- The full loop preserves the DEST high nibble of `next_sequence`. -/
theorem receiveLoop_ns (sync : Bool) (ns : Nat) (data : List Nat)
    (h : ns &&& 0xF0 = 0x10) : (receiveLoop sync ns data).2.1 &&& 0xF0 = 0x10 := by
  suffices hgen : ∀ n (sync : Bool) (ns : Nat) (data : List Nat),
      2 * data.length + (if sync then 1 else 0) ≤ n → ns &&& 0xF0 = 0x10 →
      (receiveLoop sync ns data).2.1 &&& 0xF0 = 0x10 from
    hgen (2 * data.length + 1) sync ns data (by split <;> omega) h
  intro n
  induction n with
  | zero =>
    intro sync ns data hn h
    match sync, data, hn with
    | false, [], _ => rw [receiveLoop_nil]; exact h
  | succ n ih =>
    intro sync ns data hn h
    cases hstep : receiveStep sync ns data with
    | stop => rw [receiveLoop_stop hstep]; exact h
    | cont s' ns' d' outs =>
      rw [receiveLoop_cont hstep]
      refine ih s' ns' d' ?_ (receiveStep_ns hstep h)
      rcases receiveStep_progress hstep with h' | ⟨hd, hs', hsync⟩
      · rcases s' <;> rcases sync <;> simp at hn ⊢ <;> omega
      · subst hd hs' hsync
        simp at hn ⊢
        omega

/-- The states reachable from `Transport::new` (synchronized,
`next_sequence = DEST`) by any sequence of `receive` calls with arbitrary
input bytes. -/
inductive Reachable : Bool → Nat → Prop where
  | init : Reachable true 0x10
  | recv (sync : Bool) (ns : Nat) (data : List Nat) :
      Reachable sync ns →
      Reachable (receiveLoop sync ns data).1 (receiveLoop sync ns data).2.1

/-- C6 (sequence-nibble invariant): in every reachable state,
`next_sequence & 0xF0 = DEST = 0x10`. -/
theorem next_sequence_invariant : ∀ (sync : Bool) (ns : Nat),
    Reachable sync ns → ns &&& 0xF0 = 0x10 := by
  intro sync ns h
  induction h with
  | init => decide
  | recv sync ns data hr ih => exact receiveLoop_ns sync ns data ih

/-- C6 witness: the invariant at the initial state. -/
theorem next_sequence_invariant_witness : (0x10 : Nat) &&& 0xF0 = 0x10 :=
  next_sequence_invariant true 0x10 Reachable.init

/-- C5 (framing faults desynchronize): while synchronized, with a full header
available and the head byte not a stray sync, a length byte outside
`[MIN_LEN, MAX_LEN]`, a wrong destination nibble, a missing trailing sync, or
a CRC mismatch makes the step record Unsynchronized, consume nothing,
dispatch nothing, emit nothing, and leave `next_sequence` unchanged. -/
theorem framing_fault_desync (ns : Nat) (data : List Nat) (h5 : 5 ≤ data.length)
    (hhead : data.getD 0 0 ≠ 0x7E)
    (hbad :
      (¬(5 ≤ data.getD 0 0 ∧ data.getD 0 0 ≤ 64)) ∨
      ((5 ≤ data.getD 0 0 ∧ data.getD 0 0 ≤ 64) ∧
        data.getD 1 0 &&& 0xF0 ≠ 0x10) ∨
      ((5 ≤ data.getD 0 0 ∧ data.getD 0 0 ≤ 64) ∧
        data.getD 1 0 &&& 0xF0 = 0x10 ∧ data.getD 0 0 ≤ data.length ∧
        data.getD (data.getD 0 0 - 1) 0 ≠ 0x7E) ∨
      ((5 ≤ data.getD 0 0 ∧ data.getD 0 0 ≤ 64) ∧
        data.getD 1 0 &&& 0xF0 = 0x10 ∧ data.getD 0 0 ≤ data.length ∧
        data.getD (data.getD 0 0 - 1) 0 = 0x7E ∧
        (data.getD (data.getD 0 0 - 3) 0) <<< 8 ||| data.getD (data.getD 0 0 - 2) 0 ≠
          crc16 (data.take (data.getD 0 0 - 3)))) :
    receiveStep true ns data = .cont false ns data [] := by
  match data, h5 with
  | b :: rest, h5 =>
    simp only [List.getD_cons_zero] at hhead hbad
    simp only [receiveStep]
    rw [if_neg (show ¬(true = false) by simp)]
    rw [if_neg hhead]
    rw [if_neg (show ¬(b :: rest).length < 5 by omega)]
    simp only [List.getD_cons_zero]
    rcases hbad with h1 | ⟨hl, h2⟩ | ⟨hl, hseq, hle, h3⟩ | ⟨hl, hseq, hle, htr, h4⟩
    · rw [if_pos h1]
    · rw [if_neg (not_not_intro hl), if_pos h2]
    · rw [if_neg (not_not_intro hl), if_neg (not_not_intro hseq),
        if_neg (show ¬(b :: rest).length < b by omega), if_pos h3]
    · rw [if_neg (not_not_intro hl), if_neg (not_not_intro hseq),
        if_neg (show ¬(b :: rest).length < b by omega),
        if_neg (not_not_intro htr), if_pos h4]

/-- C5 witness: a zero length byte desynchronizes without consuming. -/
theorem framing_fault_desync_witness :
    (5 : Nat) ≤ ([0, 0, 0, 0, 0] : List Nat).length ∧
      receiveStep true 0x10 [0, 0, 0, 0, 0] =
        .cont false 0x10 [0, 0, 0, 0, 0] [] :=
  ⟨by decide,
   framing_fault_desync 0x10 [0, 0, 0, 0, 0] (by decide) (by decide)
     (Or.inl (by decide))⟩

/-! ## Message write path (`Transport::encode_frame`, transport.rs 156-175) -/

/-- Model of `encode_frame` against a non-truncating output buffer holding `pre`:
record the cursor, emit the placeholder/sequence header `[0, ns]`, let the
body writer append `body`, overwrite the placeholder with
`(data_since(cursor).len() + 3) as u8`, then append the CRC16 over
`data_since(cursor)` big-endian plus the sync byte.  Returns the final
buffer contents. -/
def encode_frame (pre : List Nat) (ns : Nat) (body : List Nat) : List Nat :=
  let cursor := pre.length
  let buf2 := (pre ++ [0, ns]) ++ body
  let changed := (buf2.drop cursor).length
  let buf3 := buf2.set cursor ((changed + 3) % 256)
  let crc := crc16 (buf3.drop cursor)
  buf3 ++ [(crc &&& 0xFF00) >>> 8, crc &&& 0xFF, 0x7E]

/-- Normal form of the output of `encode_frame`. -/
theorem encode_frame_eq (pre : List Nat) (ns : Nat) (body : List Nat) :
    encode_frame pre ns body =
      pre ++ (((body.length + 5) % 256) :: ns :: body ++
        [(crc16 (((body.length + 5) % 256) :: ns :: body) &&& 0xFF00) >>> 8,
         crc16 (((body.length + 5) % 256) :: ns :: body) &&& 0xFF, 0x7E]) := by
  simp only [encode_frame]
  have h1 : (pre ++ [0, ns]) ++ body = pre ++ ([0, ns] ++ body) := by simp
  rw [h1, List.drop_left]
  have h2 : ([0, ns] ++ body).length = body.length + 2 := by simp
  rw [h2]
  rw [List.set_append_right _ _ (le_refl pre.length), Nat.sub_self]
  have h3 : ([0, ns] ++ body).set 0 ((body.length + 2 + 3) % 256) =
      ((body.length + 5) % 256) :: ns :: body := by
    simp [List.set]
  rw [h3, List.drop_left]
  simp

/-- C7 (amended, frame well-formedness): for a body of at most 250 bytes —
so that the `(len + 3) as u8` cast does not wrap — the bytes `encode_frame`
appends form a frame whose first byte is the total length, second byte the
sequence, last byte the sync, and whose two bytes before the sync are the
big-endian CRC16 over all preceding frame bytes. -/
theorem encode_frame_wellformed (pre : List Nat) (ns : Nat) (body : List Nat)
    (hlen : body.length ≤ 250) :
    ((encode_frame pre ns body).drop pre.length).length = body.length + 5 ∧
    ((encode_frame pre ns body).drop pre.length).getD 0 0 =
      ((encode_frame pre ns body).drop pre.length).length ∧
    ((encode_frame pre ns body).drop pre.length).getD 1 0 = ns ∧
    ((encode_frame pre ns body).drop pre.length).getLast? = some 0x7E ∧
    ((encode_frame pre ns body).drop pre.length).getD
        (((encode_frame pre ns body).drop pre.length).length - 3) 0 =
      crc16 (((encode_frame pre ns body).drop pre.length).take
        (((encode_frame pre ns body).drop pre.length).length - 3)) / 256 ∧
    ((encode_frame pre ns body).drop pre.length).getD
        (((encode_frame pre ns body).drop pre.length).length - 2) 0 =
      crc16 (((encode_frame pre ns body).drop pre.length).take
        (((encode_frame pre ns body).drop pre.length).length - 3)) % 256 := by
  set frame := (encode_frame pre ns body).drop pre.length with hfdef
  have hmod : (body.length + 5) % 256 = body.length + 5 := by omega
  set crc := crc16 ((body.length + 5) % 256 :: ns :: body) with hcrc
  have hframe : frame = (((body.length + 5) % 256) :: ns :: body) ++
      [(crc &&& 0xFF00) >>> 8, crc &&& 0xFF, 0x7E] := by
    rw [hfdef, encode_frame_eq, List.drop_left]
  have hflen : frame.length = body.length + 5 := by
    rw [hframe]; simp
  have hlt : crc < 2 ^ 16 := crc16_lt _
  have e3 : ((body.length + 5) % 256 :: ns :: body ++
      [(crc &&& 0xFF00) >>> 8, crc &&& 0xFF, 0x7E]).length - 3 =
      ((body.length + 5) % 256 :: ns :: body : List Nat).length := by
    simp
  have e2 : ((body.length + 5) % 256 :: ns :: body ++
      [(crc &&& 0xFF00) >>> 8, crc &&& 0xFF, 0x7E]).length - 2 =
      ((body.length + 5) % 256 :: ns :: body : List Nat).length + 1 := by
    simp
  refine ⟨hflen, ?_, ?_, ?_, ?_, ?_⟩
  · rw [hframe]
    simp [hmod]
  · rw [hframe]
    simp
  · rw [hframe]
    have hsplit : ((body.length + 5) % 256 :: ns :: body : List Nat) ++
        [(crc &&& 0xFF00) >>> 8, crc &&& 0xFF, 0x7E] =
        ((body.length + 5) % 256 :: ns :: body ++
         [(crc &&& 0xFF00) >>> 8, crc &&& 0xFF]) ++ [0x7E] := by
      simp
    rw [hsplit, List.getLast?_concat]
  · rw [hframe, e3, List.take_left, getD_append_right _ (le_refl _),
      Nat.sub_self, ← hcrc]
    simpa using hi_byte crc hlt
  · rw [hframe, e2, e3, List.take_left, getD_append_right _ (by omega),
      Nat.add_sub_cancel_left, ← hcrc]
    simpa using and255_eq_mod crc

/-- C7 witness: the empty body against an empty buffer. -/
theorem encode_frame_wellformed_witness :
    ([] : List Nat).length ≤ 250 ∧
      (((encode_frame [] 0x10 []).drop ([] : List Nat).length).length =
        ([] : List Nat).length + 5 ∧
       ((encode_frame [] 0x10 []).drop ([] : List Nat).length).getD 0 0 =
        ((encode_frame [] 0x10 []).drop ([] : List Nat).length).length ∧
       ((encode_frame [] 0x10 []).drop ([] : List Nat).length).getD 1 0 = 0x10 ∧
       ((encode_frame [] 0x10 []).drop ([] : List Nat).length).getLast? =
        some 0x7E ∧
       ((encode_frame [] 0x10 []).drop ([] : List Nat).length).getD
          (((encode_frame [] 0x10 []).drop ([] : List Nat).length).length - 3) 0 =
        crc16 (((encode_frame [] 0x10 []).drop ([] : List Nat).length).take
          (((encode_frame [] 0x10 []).drop ([] : List Nat).length).length - 3)) /
          256 ∧
       ((encode_frame [] 0x10 []).drop ([] : List Nat).length).getD
          (((encode_frame [] 0x10 []).drop ([] : List Nat).length).length - 2) 0 =
        crc16 (((encode_frame [] 0x10 []).drop ([] : List Nat).length).take
          (((encode_frame [] 0x10 []).drop ([] : List Nat).length).length - 3)) %
          256) :=
  ⟨by decide, encode_frame_wellformed [] 0x10 [] (by decide)⟩

set_option maxRecDepth 4000 in
/-- C7 counterexample: with a 251-byte body (no buffer truncation involved)
the emitted length byte wraps modulo 256 and no longer equals the frame's
length, refuting the claim for arbitrary body writers. -/
theorem encode_frame_lengthbyte_counterexample :
    ¬((encode_frame [] 0x10 (List.replicate 251 0)).getD 0 0 =
      (encode_frame [] 0x10 (List.replicate 251 0)).length) := by decide

/-! ## FIFO buffer (`anchor/src/fifo_buffer.rs`) -/

/-- Model of `FifoBuffer`: a fixed array (`buffer`, of length `BUF_SIZE`) and the
count of committed bytes (`used`). -/
structure FifoBuffer where
  buffer : List Nat
  used : Nat
deriving DecidableEq

/-- Model of `data` (fifo_buffer.rs): the filled part `buffer[0..used]`. -/
def FifoBuffer.data (f : FifoBuffer) : List Nat := f.buffer.take f.used

/-- Model of `extend` (fifo_buffer.rs lines 39-47): if the tail `buffer[used..]` is
shorter than `buf`, drop the write entirely; otherwise copy `buf` in at
position `used` and advance `used`. -/
def FifoBuffer.extend (f : FifoBuffer) (buf : List Nat) : FifoBuffer :=
  if f.buffer.length - f.used < buf.length then f
  else
    { buffer := f.buffer.take f.used ++ buf ++ f.buffer.drop (f.used + buf.length),
      used := f.used + buf.length }

/-- C9 (all-or-nothing append): when `buf` fits in the remaining capacity,
`extend` appends all of it after the existing contents (and keeps the array
size); otherwise the buffer is left completely unchanged.  No partial append
exists. -/
theorem fifo_extend_all_or_nothing (f : FifoBuffer) (buf : List Nat)
    (hinv : f.used ≤ f.buffer.length) :
    if f.used + buf.length ≤ f.buffer.length then
      (f.extend buf).data = f.data ++ buf ∧
      (f.extend buf).used = f.used + buf.length ∧
      (f.extend buf).buffer.length = f.buffer.length
    else f.extend buf = f := by
  by_cases h : f.used + buf.length ≤ f.buffer.length
  · rw [if_pos h]
    have hcond : ¬(f.buffer.length - f.used < buf.length) := by omega
    have htk : (f.buffer.take f.used).length = f.used := by
      simp [hinv]
    have hext : f.extend buf =
        ⟨f.buffer.take f.used ++ buf ++ f.buffer.drop (f.used + buf.length),
         f.used + buf.length⟩ := by
      simp [FifoBuffer.extend, if_neg hcond]
    refine ⟨?_, ?_, ?_⟩
    · rw [hext]
      show ((f.buffer.take f.used ++ buf) ++
          f.buffer.drop (f.used + buf.length)).take (f.used + buf.length) = _
      rw [List.take_left' (by simp [htk])]
      rfl
    · rw [hext]
    · rw [hext]
      simp [htk]
      omega
  · rw [if_neg h]
    simp [FifoBuffer.extend, if_pos (show f.buffer.length - f.used < buf.length
      by omega)]

/-- C9 witness: appending one byte into an empty two-byte FIFO. -/
theorem fifo_extend_all_or_nothing_witness :
    (FifoBuffer.mk [0, 0] 0).used ≤ (FifoBuffer.mk [0, 0] 0).buffer.length ∧
      (if (FifoBuffer.mk [0, 0] 0).used + [(7 : Nat)].length ≤
          (FifoBuffer.mk [0, 0] 0).buffer.length then
        ((FifoBuffer.mk [0, 0] 0).extend [7]).data =
            (FifoBuffer.mk [0, 0] 0).data ++ [7] ∧
        ((FifoBuffer.mk [0, 0] 0).extend [7]).used =
            (FifoBuffer.mk [0, 0] 0).used + [(7 : Nat)].length ∧
        ((FifoBuffer.mk [0, 0] 0).extend [7]).buffer.length =
            (FifoBuffer.mk [0, 0] 0).buffer.length
       else (FifoBuffer.mk [0, 0] 0).extend [7] = FifoBuffer.mk [0, 0] 0) :=
  ⟨by decide, fifo_extend_all_or_nothing (FifoBuffer.mk [0, 0] 0) [7] (by decide)⟩

/-! ## Error path of `Readable` for byte slices -/

theorem parse_vlq_cont_length : ∀ (c v : Nat) (l : List Nat) (r : Option Nat)
    (rest : List Nat), parse_vlq_cont c v l = (r, rest) → rest.length ≤ l.length := by
  intro c v l
  induction l generalizing c v with
  | nil =>
    intro r rest h
    simp only [parse_vlq_cont] at h
    split at h <;> cases h <;> simp
  | cons b tl ih =>
    intro r rest h
    simp only [parse_vlq_cont] at h
    split at h
    · have := ih _ _ _ _ h
      simp
      omega
    · cases h
      simp

/-- C10 (implicit, error path of `&[u8]` reads): when the VLQ length prefix
decodes but fewer payload bytes remain than announced, `read` fails while the
input slice stays advanced past the length-prefix bytes — it is strictly
shorter than before the call, violating the documented `Readable` contract (data should not
be advanced on failure). -/
theorem read_bytes_short_advances (data : List Nat) (len : Nat)
    (rest : List Nat) (hparse : parse_vlq_int data = (some len, rest))
    (hshort : rest.length < len) :
    read_bytes data = (none, rest) ∧ rest.length < data.length := by
  constructor
  · simp only [read_bytes, hparse]
    rw [if_pos hshort]
  · match data, hparse with
    | c :: tl, hparse =>
      simp only [parse_vlq_int] at hparse
      have := parse_vlq_cont_length _ _ _ _ _ hparse
      simp
      omega

/-- C10 witness: a length prefix of 2 followed by a single byte. -/
theorem read_bytes_short_advances_witness :
    read_bytes [2, 0xAA] = (none, [0xAA]) ∧
      ([0xAA] : List Nat).length < ([2, 0xAA] : List Nat).length :=
  read_bytes_short_advances [2, 0xAA] 2 [0xAA] (by decide) (by decide)

/-! ## Generated `identify` handler (`anchor_codegen/src/lib.rs` 802-814) -/

/-- The generated `handle_identify`, parameterized by the compressed
dictionary `D` (the `DATA` constant).  `offset` and `count` are `u32`, so
`offset + count` wraps modulo `2^32` (with overflow checks it panics, which
equally fails to produce the claimed reply); the slice `&DATA[offset..end]`
panics — modelled as `none` — when `offset > end`.  On success the reply
arguments `(offset, data)` of `identify_response` are returned. -/
def handle_identify (D : List Nat) (offset count : Nat) : Option (Nat × List Nat) :=
  let e := min ((offset + count) % 2 ^ 32) D.length
  let o := min offset D.length
  if o ≤ e then some (o, (D.take e).drop o) else none

/-- C4 (amended, identify slicing): when `k + n` does not overflow `u32`, the
handler replies with offset `min(k, |D|)` and data `D[min(k,|D|) ..
min(k+n,|D|)]`. -/
theorem handle_identify_spec (D : List Nat) (k n : Nat)
    (hno : k + n < 2 ^ 32) :
    handle_identify D k n =
      some (min k D.length, (D.take (min (k + n) D.length)).drop (min k D.length)) := by
  simp only [handle_identify]
  rw [Nat.mod_eq_of_lt hno, if_pos (by omega)]

/-- C4 witness: a 5-byte dictionary, `k = 1`, `n = 2` yields bytes 1..3. -/
theorem handle_identify_spec_witness :
    (1 : Nat) + 2 < 2 ^ 32 ∧
      handle_identify [0, 1, 2, 3, 4] 1 2 =
        some (min 1 ([0, 1, 2, 3, 4] : List Nat).length,
          (([0, 1, 2, 3, 4] : List Nat).take
            (min (1 + 2) ([0, 1, 2, 3, 4] : List Nat).length)).drop
            (min 1 ([0, 1, 2, 3, 4] : List Nat).length)) :=
  ⟨by decide, handle_identify_spec [0, 1, 2, 3, 4] 1 2 (by decide)⟩

/-- C4 counterexample: at `k = 2^32 - 1`, `n = 2` on a 5-byte dictionary the
`u32` sum wraps, `end` becomes `min 1 5 = 1 < offset`, and the slice panics
instead of producing the claimed `identify_response(min(k,|D|), D[5..5])`. -/
theorem handle_identify_counterexample :
    handle_identify [0, 1, 2, 3, 4] (2 ^ 32 - 1) 2 ≠
      some (min (2 ^ 32 - 1) ([0, 1, 2, 3, 4] : List Nat).length,
        (([0, 1, 2, 3, 4] : List Nat).take
          (min (2 ^ 32 - 1 + 2) ([0, 1, 2, 3, 4] : List Nat).length)).drop
          (min (2 ^ 32 - 1) ([0, 1, 2, 3, 4] : List Nat).length)) := by decide

/-! ## Command ID assignment (`Processor::assign_command_ids`,
`anchor_codegen/src/lib.rs` 535-562) -/

/-- The `while used_ids.contains(&id) { id += 1 }` scan.  The fuel is an
upper bound on the number of loop iterations; call sites pass
`used.length + 1`, which suffices whenever `used` has no duplicates
(pigeonhole), so the model agrees with the unbounded Rust loop on every
reachable state. -/
def findFree (used : List Nat) : Nat → Nat → Nat
  | next, 0 => next
  | next, fuel + 1 => if next ∈ used then findFree used (next + 1) fuel else next

/-- The assignment pass: walk the catalog (in keyed order) as a list of
optional pre-assigned IDs; `used` is the used-ID set, `next` the rolling
cursor (`next_id`).  `none` models the `panic!("Too many commands")` at
cursor 255 as well as the `u8` overflow (with overflow checks, as in the dev profile of a
build script) of `id += 1` / `next_id = id + 1` when the scan
reaches 255.  On success, returns every message's final ID in order. -/
def assign_go : List (Option Nat) → List Nat → Nat → Option (List Nat)
  | [], _, _ => some []
  | some i :: rest, used, next => (assign_go rest used next).map (i :: ·)
  | none :: rest, used, next =>
    if next = 255 then none
    else
      let idv := findFree used next (used.length + 1)
      if 255 ≤ idv then none
      else (assign_go rest (idv :: used) (idv + 1)).map (idv :: ·)

/-- Model of `assign_command_ids`: collect every pre-assigned ID into the used set
(a `BTreeSet`, hence deduplicated), then run the assignment pass from
cursor 0. -/
def assign_command_ids (msgs : List (Option Nat)) : Option (List Nat) :=
  assign_go msgs ((msgs.filterMap id).dedup) 0

/-- The specification relation for the claim: walking the catalog in order,
a pre-assigned message keeps its ID; a message without one receives the
least ID that is `≥` the rolling cursor and outside the used set, the used
set absorbs it, and the cursor advances to one past it. -/
inductive AssignRel : List (Option Nat) → List Nat → Nat → List Nat → Prop where
  | nil (used : List Nat) (next : Nat) : AssignRel [] used next []
  | pre (i : Nat) (rest : List (Option Nat)) (used : List Nat) (next : Nat)
      (out : List Nat) :
      AssignRel rest used next out → AssignRel (some i :: rest) used next (i :: out)
  | fresh (idv : Nat) (rest : List (Option Nat)) (used : List Nat) (next : Nat)
      (out : List Nat) :
      next ≤ idv → idv ∉ used → (∀ j, next ≤ j → j ∉ used → idv ≤ j) →
      AssignRel rest (idv :: used) (idv + 1) out →
      AssignRel (none :: rest) used next (idv :: out)

theorem findFree_spec (used : List Nat) :
    ∀ (fuel next : Nat), (∃ j, next ≤ j ∧ j < next + fuel ∧ j ∉ used) →
      next ≤ findFree used next fuel ∧ findFree used next fuel ∉ used ∧
      ∀ j, next ≤ j → j ∉ used → findFree used next fuel ≤ j := by
  intro fuel
  induction fuel with
  | zero =>
    rintro next ⟨j, h1, h2, h3⟩
    omega
  | succ fuel ih =>
    rintro next ⟨j, h1, h2, h3⟩
    by_cases hmem : next ∈ used
    · have hne : j ≠ next := fun he => h3 (he ▸ hmem)
      obtain ⟨ha, hb, hc⟩ := ih (next + 1) ⟨j, by omega, by omega, h3⟩
      simp only [findFree, if_pos hmem]
      refine ⟨by omega, hb, ?_⟩
      intro j' hj' hj'u
      have : j' ≠ next := fun he => hj'u (he ▸ hmem)
      exact hc j' (by omega) hj'u
    · simp only [findFree, if_neg hmem]
      exact ⟨le_refl _, hmem, fun j' hj' _ => hj'⟩

/-- Pigeonhole: if every number below `N` lies in a duplicate-free list,
the list has at least `N` elements. -/
theorem length_ge_of_below (used : List Nat) (hnd : used.Nodup) (N : Nat)
    (h : ∀ j, j < N → j ∈ used) : N ≤ used.length := by
  have hsub : Finset.range N ⊆ used.toFinset := by
    intro x hx
    rw [Finset.mem_range] at hx
    rw [List.mem_toFinset]
    exact h x hx
  have := Finset.card_le_card hsub
  rw [Finset.card_range, List.toFinset_card_of_nodup hnd] at this
  exact this

/-- In a duplicate-free used set, some ID within `used.length + 1` steps of
the cursor is free. -/
theorem exists_free (used : List Nat) (hnd : used.Nodup) (next : Nat) :
    ∃ j, next ≤ j ∧ j < next + (used.length + 1) ∧ j ∉ used := by
  by_contra hno
  push_neg at hno
  have hsub : Finset.range (used.length + 1) ⊆ used.toFinset.image (· - next) := by
    intro x hx
    rw [Finset.mem_range] at hx
    rw [Finset.mem_image]
    exact ⟨next + x, by
      rw [List.mem_toFinset]
      exact hno (next + x) (by omega) (by omega), by omega⟩
  have hcard := Finset.card_le_card hsub
  rw [Finset.card_range] at hcard
  have h2 : (used.toFinset.image (· - next)).card ≤ used.toFinset.card :=
    Finset.card_image_le
  rw [List.toFinset_card_of_nodup hnd] at h2
  omega

theorem assign_go_rel : ∀ (msgs : List (Option Nat)) (used : List Nat)
    (next : Nat) (out : List Nat), used.Nodup →
    assign_go msgs used next = some out → AssignRel msgs used next out := by
  intro msgs
  induction msgs with
  | nil =>
    intro used next out _ h
    simp only [assign_go, Option.some_inj] at h
    exact h ▸ AssignRel.nil used next
  | cons m rest ih =>
    intro used next out hnd h
    match m with
    | some i =>
      simp only [assign_go, Option.map_eq_some'] at h
      obtain ⟨out', hout', rfl⟩ := h
      exact AssignRel.pre i rest used next out' (ih used next out' hnd hout')
    | none =>
      simp only [assign_go] at h
      split at h
      · cases h
      · split at h
        · cases h
        · rename_i hfuel
          simp only [Option.map_eq_some'] at h
          obtain ⟨out', hout', rfl⟩ := h
          obtain ⟨ha, hb, hc⟩ :=
            findFree_spec used (used.length + 1) next (exists_free used hnd next)
          exact AssignRel.fresh _ rest used next out' ha hb hc
            (ih _ _ out' (List.Nodup.cons hb hnd) hout')

theorem assign_go_fail : ∀ (msgs : List (Option Nat)) (used : List Nat)
    (next : Nat), used.Nodup → (∀ j, j < next → j ∈ used) →
    assign_go msgs used next = none →
    255 < used.length + msgs.count none := by
  intro msgs
  induction msgs with
  | nil =>
    intro used next _ _ h
    simp [assign_go] at h
  | cons m rest ih =>
    intro used next hnd hinv h
    match m with
    | some i =>
      simp only [assign_go, Option.map_eq_none'] at h
      have := ih used next hnd hinv h
      simp only [List.count_cons]
      simp at this ⊢
      omega
    | none =>
      simp only [assign_go] at h
      have hcnt : (none :: rest).count (none : Option Nat) =
          rest.count none + 1 := by
        simp [List.count_cons]
      split at h
      · rename_i h255
        subst h255
        have : 255 ≤ used.length := length_ge_of_below used hnd 255 (fun j hj => hinv j hj)
        rw [hcnt]
        omega
      · rename_i h255
        split at h
        · rename_i hbig
          obtain ⟨ha, hb, hc⟩ :=
            findFree_spec used (used.length + 1) next (exists_free used hnd next)
          have hall : ∀ j, j < findFree used next (used.length + 1) → j ∈ used := by
            intro j hj
            by_cases hju : j ∈ used
            · exact hju
            · rcases Nat.lt_or_ge j next with hc1 | hc2
              · exact hinv j hc1
              · exact absurd (hc j hc2 hju) (by omega)
          have : 255 ≤ used.length :=
            length_ge_of_below used hnd 255 (fun j hj => hall j (by omega))
          rw [hcnt]
          omega
        · rename_i hsmall
          simp only [Option.map_eq_none'] at h
          obtain ⟨ha, hb, hc⟩ :=
            findFree_spec used (used.length + 1) next (exists_free used hnd next)
          have hinv' : ∀ j, j < findFree used next (used.length + 1) + 1 →
              j ∈ findFree used next (used.length + 1) :: used := by
            intro j hj
            rcases Nat.lt_or_ge j next with hc1 | hc2
            · exact List.mem_cons_of_mem _ (hinv j hc1)
            · by_cases hju : j ∈ used
              · exact List.mem_cons_of_mem _ hju
              · have := hc j hc2 hju
                have : j = findFree used next (used.length + 1) := by omega
                simp [this]
          have := ih _ _ (List.Nodup.cons hb hnd) hinv' h
          rw [hcnt]
          simp at this ⊢
          omega

/-- C8 (amended, ID assignment): on the catalog in keyed order, with the used
set initialized to the deduplicated pre-assigned IDs, every successful run
assigns each unassigned message the smallest ID that is `≥` the rolling
cursor and not in the used set, advancing the cursor one past it; and when
the build fails, more than 255 IDs were required (pre-assigned plus
unassigned). -/
theorem assign_ids_spec (msgs : List (Option Nat)) :
    (∀ out, assign_command_ids msgs = some out →
      AssignRel msgs ((msgs.filterMap id).dedup) 0 out) ∧
    (assign_command_ids msgs = none →
      255 < ((msgs.filterMap id).dedup).length + msgs.count none) := by
  constructor
  · intro out h
    exact assign_go_rel msgs _ 0 out (List.nodup_dedup _) h
  · intro h
    exact assign_go_fail msgs _ 0 (List.nodup_dedup _)
      (fun j hj => absurd hj (by omega)) h

/-- C8 witness: the two built-ins (`identify = 1`, `identify_response = 0`)
plus two unassigned messages, which receive IDs 2 and 3. -/
theorem assign_ids_spec_witness :
    AssignRel [some 1, some 0, none, none]
      (([some 1, some 0, none, none].filterMap id).dedup) 0 [1, 0, 2, 3] :=
  (assign_ids_spec [some 1, some 0, none, none]).1 [1, 0, 2, 3] (by decide)

set_option maxRecDepth 8000 in
/-- C8 counterexample: a catalog with ID 255 pre-assigned and 253 unassigned
messages requires 256 distinct IDs — more than 255 — yet the build succeeds,
refuting "the build fails when more than 255 IDs are required" as stated. -/
theorem assign_ids_counterexample :
    255 < ((((some 1 :: some 0 :: some 255 :: List.replicate 253 none) :
        List (Option Nat)).filterMap id).dedup).length +
        ((some 1 :: some 0 :: some 255 :: List.replicate 253 none) :
          List (Option Nat)).count none ∧
      assign_command_ids
        (some 1 :: some 0 :: some 255 :: List.replicate 253 none) ≠ none := by
  constructor
  · decide
  · decide

end Anchor
